import Mathlib

/-! seekbuf: a seekable in-memory byte buffer

Shallow embedding of `buffer.go` (package `seekbuf`).

Modelling conventions:

* the store `b.data` is a `List Byte`; only its length and contents matter to
  the code (`s[low:]` is bounded by `len(s)`, never by the capacity);
* a slice that crosses the interface (the argument of `Read` and `Write`, the
  result of `Bytes`) is a `Slice`: its contents, and whether its memory is its
  own or a window of the store's backing array, because `copy` through a
  window changes the store and is seen through the window;
* `copy` and `append` behave as a `memmove` when source and destination
  overlap;
* Go `int` is taken to be 64 bits wide (amd64, arm64), a mathematical integer
  kept in `[minInt, maxInt]` by `wrapInt` after every machine addition;
  `len(s)` is the length of the list as an integer;
* a run-time panic (slice bounds out of range) is the result `none`;
* the `error` values the code can return are the constructors of `Error`.
-/

namespace Seekbuf

/-- One byte. -/
abbrev Byte := Fin 256

/-- Smallest value of a 64-bit Go `int`. -/
def minInt : Int := -9223372036854775808

/-- Largest value of a 64-bit Go `int`. -/
def maxInt : Int := 9223372036854775807

/-- Two's complement wrap-around of a mathematical integer into the range of
a 64-bit Go `int`: the value a machine addition or an `int(...)` conversion
leaves behind. -/
def wrapInt (x : Int) : Int :=
  (x + 9223372036854775808) % 18446744073709551616 - 9223372036854775808

/-- Go `len(s)` as an `int`. -/
def len (s : List Byte) : Int := (s.length : Int)

/-- Go slice expression `s[low:]`: panics (`none`) unless `0 <= low <= len(s)`. -/
def sliceFrom (s : List Byte) (low : Int) : Option (List Byte) :=
  if 0 ≤ low ∧ low ≤ len s then some (s.drop low.toNat) else none

/-- Number of bytes Go `copy(dst, src)` copies. -/
def copyLen (dst src : List Byte) : Nat := min dst.length src.length

/-- Contents of `dst` after Go `copy(dst, src)`. -/
def copy (dst src : List Byte) : List Byte :=
  src.take (copyLen dst src) ++ dst.drop (copyLen dst src)

/-- The errors `buffer.go` returns: `io.EOF`, and the two `fmt.Errorf`
values of `Seek`, each carrying the number it formats. -/
inductive Error where
  | EOF : Error
  | invalidOffset (offset : Int) : Error
  | invalidWhence (whence : Int) : Error
deriving DecidableEq, Repr

/-- Constant `os.SEEK_SET`. -/
def SEEK_SET : Int := 0

/-- Constant `os.SEEK_CUR`. -/
def SEEK_CUR : Int := 1

/-- Constant `os.SEEK_END`. -/
def SEEK_END : Int := 2

/-- Go `type Buffer struct { data []byte; pos int }`. -/
structure Buffer where
  data : List Byte
  pos : Int
deriving DecidableEq, Repr

/-- The zero value `var b seekbuf.Buffer`: nil data, position 0. -/
def Buffer.empty : Buffer := ⟨[], 0⟩

/-- A slice in the hands of the caller: the argument of `Read` and `Write`,
the result of `Bytes`. `bytes` are its contents when the call is made.
`off = none`: its memory shares nothing with the store. `off = some o`: its
first byte is byte `o` of the store's backing array, so its bytes at store
indices below `len(data)` are the store's own and any further ones lie in the
array's spare capacity. -/
structure Slice where
  bytes : List Byte
  off : Option Nat
deriving DecidableEq, Repr

/-- A slice whose memory shares nothing with the store. -/
def Slice.own (bytes : List Byte) : Slice := ⟨bytes, none⟩

/-- Contents of the slice read again from memory when the store holds `d`:
unchanged for memory of its own; for a window, the store's bytes from `off` on
followed by the bytes of the slice that lie beyond the store. -/
def Slice.reread (p : Slice) (d : List Byte) : List Byte :=
  match p.off with
  | none => p.bytes
  | some o => (d.drop o).take p.bytes.length ++ p.bytes.drop (d.length - o)

/-- The slice can exist next to a store holding `d`: a window starts inside
the store (or at its end) and its contents are what memory holds. -/
def Slice.ValidFor (p : Slice) (d : List Byte) : Prop :=
  match p.off with
  | none => True
  | some o => o ≤ d.length ∧ (d.drop o).take p.bytes.length ++ p.bytes.drop (d.length - o) = p.bytes

instance (p : Slice) (d : List Byte) : Decidable (p.ValidFor d) :=
  match p with
  | ⟨_, none⟩ => isTrue trivial
  | ⟨bytes, some o⟩ =>
    inferInstanceAs (Decidable (o ≤ d.length ∧
      (d.drop o).take bytes.length ++ bytes.drop (d.length - o) = bytes))

/-- Store holding `d` after the bytes `w` have been written from store index
`o` on; bytes of `w` that fall beyond the store go to spare capacity. -/
def overlay (d : List Byte) (o : Nat) (w : List Byte) : List Byte :=
  d.take o ++ w.take (d.length - o) ++ d.drop (o + w.length)

/-- Store after `copy(p, ...)` has written the bytes `w` into the caller's
slice `p`: untouched when `p` has memory of its own, overlaid from `off` on
when `p` is a window of the store. -/
def storeAfterCopyInto (p : Slice) (d w : List Byte) : List Byte :=
  match p.off with
  | none => d
  | some o => overlay d o w

/-- What a call of `Read` leaves behind and returns: the receiver, the
contents of the caller's slice `p`, and the two results. -/
structure ReadResult where
  buf : Buffer
  p : List Byte
  n : Int
  err : Option Error
deriving DecidableEq, Repr

/-- What a call of `Write` or `Seek` leaves behind and returns: the receiver
and the two results. -/
structure Result where
  buf : Buffer
  n : Int
  err : Option Error
deriving DecidableEq, Repr

/-- What a call of `Bytes` leaves behind and returns: the receiver and the
returned slice, a window of the store. -/
structure BytesResult where
  buf : Buffer
  view : Slice
deriving DecidableEq, Repr

/-- Go `func (b *Buffer) Bytes() []byte`: `b.data[b.pos:]`, which shares its
memory with the store from index `pos` on. -/
def Bytes (b : Buffer) : Option BytesResult :=
  match sliceFrom b.data b.pos with
  | none => none
  | some rest => some ⟨b, ⟨rest, some b.pos.toNat⟩⟩

/-- Go `func (b *Buffer) Read(p []byte) (int, error)`. `copy` writes the
first `n` remaining bytes into `p`; when `p` is a window of the store that
changes the store too. -/
def Read (b : Buffer) (p : Slice) : Option ReadResult :=
  if len p.bytes = 0 then
    some ⟨b, p.bytes, 0, none⟩
  else
    match sliceFrom b.data b.pos with
    | none => none
    | some rest =>
      if len rest ≤ 0 then
        some ⟨b, p.bytes, 0, some Error.EOF⟩
      else
        let n : Int := (copyLen p.bytes rest : Int)
        let data1 := storeAfterCopyInto p b.data (rest.take (copyLen p.bytes rest))
        some ⟨{ data := data1, pos := wrapInt (b.pos + n) }, copy p.bytes rest, n, none⟩

/-- Go `func (b *Buffer) Write(p []byte) (int, error)`. The first statement
copies into `b.data[b.pos:]`, which shares its bytes with `b.data`, so the
store becomes `b.data[:b.pos]` followed by the copied-into tail; the second
appends `p[n:]`, read from `p` after the copy: when `p` is a window of the
store these are the bytes the copy has left there. -/
def Write (b : Buffer) (p : Slice) : Option Result :=
  match sliceFrom b.data b.pos with
  | none => none
  | some rest =>
    let n := copyLen rest p.bytes
    let data1 := b.data.take b.pos.toNat ++ copy rest p.bytes
    let data2 := data1 ++ (p.reread data1).drop n
    some ⟨{ data := data2, pos := wrapInt (b.pos + len p.bytes) }, len p.bytes, none⟩

/-- Go `func (b *Buffer) Seek(offset int64, whence int) (int64, error)`. -/
def Seek (b : Buffer) (offset : Int) (whence : Int) : Result :=
  let o := wrapInt offset
  if whence = SEEK_CUR then
    if o > 0 ∧ wrapInt (b.pos + o) ≥ len b.data then
      ⟨b, -1, some (Error.invalidOffset offset)⟩
    else
      let b1 : Buffer := { b with pos := wrapInt (b.pos + o) }
      ⟨b1, b1.pos, none⟩
  else if whence = SEEK_SET then
    if o > 0 ∧ o ≥ len b.data then
      ⟨b, -1, some (Error.invalidOffset offset)⟩
    else
      let b1 : Buffer := { b with pos := o }
      ⟨b1, b1.pos, none⟩
  else if whence = SEEK_END then
    if wrapInt (len b.data + o) < 0 then
      ⟨b, -1, some (Error.invalidOffset offset)⟩
    else
      let b1 : Buffer := { b with pos := wrapInt (len b.data + o) }
      ⟨b1, b1.pos, none⟩
  else
    ⟨b, -1, some (Error.invalidWhence whence)⟩

/-- The value is a Go `int` (or `int64`). -/
def IsInt (x : Int) : Prop := minInt ≤ x ∧ x ≤ maxInt

instance (x : Int) : Decidable (IsInt x) := by
  unfold IsInt; infer_instance

/-- The position is a valid slicing point of the store:
`0 <= pos <= len(data)`, what `b.data[b.pos:]` needs in order not to panic. -/
def InRange (b : Buffer) : Prop := 0 ≤ b.pos ∧ b.pos ≤ len b.data

instance (b : Buffer) : Decidable (InRange b) := by
  unfold InRange; infer_instance

/-! ## Arithmetic and slice lemmas -/

theorem wrapInt_of_isInt {x : Int} (h : IsInt x) : wrapInt x = x := by
  unfold IsInt minInt maxInt at h
  unfold wrapInt
  omega

theorem wrapInt_isInt (x : Int) : IsInt (wrapInt x) := by
  unfold IsInt minInt maxInt wrapInt
  omega

theorem sliceFrom_of_le {s : List Byte} {low : Int} (h0 : 0 ≤ low) (h1 : low ≤ len s) :
    sliceFrom s low = some (s.drop low.toNat) := by
  simp [sliceFrom, h0, h1]

theorem sliceFrom_eq_none {s : List Byte} {low : Int} (h : low < 0 ∨ len s < low) :
    sliceFrom s low = none := by
  unfold sliceFrom
  rw [if_neg]
  omega

theorem toNat_le_length {s : List Byte} {low : Int} (h0 : 0 ≤ low) (h1 : low ≤ len s) :
    low.toNat ≤ s.length := by
  unfold len at h1
  omega

/-- Reading a slice again never changes its length. -/
theorem length_reread (p : Slice) (d : List Byte) :
    (p.reread d).length = p.bytes.length := by
  unfold Slice.reread
  cases p.off with
  | none => rfl
  | some o =>
    simp only [List.length_append, List.length_take, List.length_drop]
    omega

/-- A slice with memory of its own reads the same whatever the store holds. -/
theorem reread_of_own (p : Slice) (d : List Byte) (h : p.off = none) :
    p.reread d = p.bytes := by
  unfold Slice.reread
  rw [h]

/-- A slice that can exist next to the store reads as its contents. -/
theorem reread_of_valid (p : Slice) (d : List Byte) (h : p.ValidFor d) :
    p.reread d = p.bytes := by
  unfold Slice.ValidFor at h
  unfold Slice.reread
  cases hp : p.off with
  | none => rfl
  | some o =>
    rw [hp] at h
    exact h.2

/-- Writing through a window never changes the length of the store. -/
theorem length_overlay (d : List Byte) (o : Nat) (w : List Byte) :
    (overlay d o w).length = d.length := by
  unfold overlay
  simp only [List.length_append, List.length_take, List.length_drop]
  omega

theorem length_storeAfterCopyInto (p : Slice) (d w : List Byte) :
    (storeAfterCopyInto p d w).length = d.length := by
  unfold storeAfterCopyInto
  cases p.off with
  | none => rfl
  | some o => exact length_overlay d o w

theorem storeAfterCopyInto_of_own (p : Slice) (d w : List Byte) (h : p.off = none) :
    storeAfterCopyInto p d w = d := by
  unfold storeAfterCopyInto
  rw [h]

/-- Store left by the two statements of `Write` when the position is in range
and the source has memory of its own: the prefix before the position, the
written bytes, and whatever of the old store lies beyond them. -/
theorem write_data_eq (d p : List Byte) (k : Nat) (hk : k ≤ d.length) :
    d.take k ++ copy (d.drop k) p ++ p.drop (copyLen (d.drop k) p)
      = d.take k ++ p ++ d.drop (k + p.length) := by
  unfold copy copyLen
  simp only [List.length_drop, List.drop_drop, List.append_assoc, List.append_cancel_left_eq]
  rcases Nat.le_total p.length (d.length - k) with h | h
  · rw [Nat.min_eq_right h, List.take_of_length_le (le_refl _), List.drop_of_length_le (le_refl _)]
    simp [Nat.add_comm]
  · rw [Nat.min_eq_left h]
    have e1 : List.drop (d.length - k + k) d = [] := List.drop_of_length_le (by omega)
    have e2 : List.drop (k + p.length) d = [] := List.drop_of_length_le (by omega)
    rw [Nat.add_comm k (d.length - k), e1, e2]
    simp

/-- Length of the store after the `copy` of `Write`: unchanged. -/
theorem length_after_copy (d p : List Byte) (k : Nat) (hk : k ≤ d.length) :
    (d.take k ++ copy (d.drop k) p).length = d.length := by
  unfold copy copyLen
  simp only [List.length_append, List.length_take, List.length_drop]
  omega

/-- The copying branch of `Read`: the destination is not empty, the position
is in range and at least one byte remains. -/
theorem Read_of_remaining (b : Buffer) (p : Slice) (hp : ¬ len p.bytes = 0)
    (h0 : 0 ≤ b.pos) (h1 : b.pos ≤ len b.data)
    (hrest : ¬ len (b.data.drop b.pos.toNat) ≤ 0) :
    Read b p = some
      ⟨⟨storeAfterCopyInto p b.data
          ((b.data.drop b.pos.toNat).take (copyLen p.bytes (b.data.drop b.pos.toNat))),
        wrapInt (b.pos + (copyLen p.bytes (b.data.drop b.pos.toNat) : Int))⟩,
      copy p.bytes (b.data.drop b.pos.toNat),
      (copyLen p.bytes (b.data.drop b.pos.toNat) : Int), none⟩ := by
  rw [Read, if_neg hp, sliceFrom_of_le h0 h1]
  simp only [if_neg hrest]

/-- The result of `Write` when the position is in range. -/
theorem Write_of_inRange (b : Buffer) (p : Slice) (h : InRange b) :
    Write b p = some
      ⟨⟨b.data.take b.pos.toNat ++ copy (b.data.drop b.pos.toNat) p.bytes
          ++ (p.reread (b.data.take b.pos.toNat ++ copy (b.data.drop b.pos.toNat) p.bytes)).drop
              (copyLen (b.data.drop b.pos.toNat) p.bytes),
        wrapInt (b.pos + len p.bytes)⟩, len p.bytes, none⟩ := by
  rw [Write, sliceFrom_of_le h.1 h.2]

/-- The result of `Write` when the position is in range and the source has
memory of its own. -/
theorem Write_of_inRange_own (b : Buffer) (p : Slice) (h : InRange b) (hp : p.off = none) :
    Write b p = some
      ⟨⟨b.data.take b.pos.toNat ++ p.bytes ++ b.data.drop (b.pos.toNat + p.bytes.length),
        wrapInt (b.pos + len p.bytes)⟩, len p.bytes, none⟩ := by
  have hk : b.pos.toNat ≤ b.data.length := toNat_le_length h.1 h.2
  rw [Write_of_inRange b p h, reread_of_own p _ hp]
  simp only [write_data_eq b.data p.bytes b.pos.toNat hk]

/-- Length of the store left by an in-range `Write`, whatever the source. -/
theorem length_written (d : List Byte) (p : Slice) (k : Nat) (hk : k ≤ d.length) :
    (d.take k ++ copy (d.drop k) p.bytes
      ++ (p.reread (d.take k ++ copy (d.drop k) p.bytes)).drop
          (copyLen (d.drop k) p.bytes)).length = max d.length (k + p.bytes.length) := by
  rw [List.length_append, length_after_copy d p.bytes k hk, List.length_drop, length_reread]
  unfold copyLen
  rw [List.length_drop]
  omega

/-- A position outside `[0, len(data)]` makes `Read` into a non-empty
destination panic. -/
theorem Read_out_of_range (b : Buffer) (p : Slice) (hp : ¬ len p.bytes = 0)
    (h : b.pos < 0 ∨ len b.data < b.pos) : Read b p = none := by
  rw [Read, if_neg hp, sliceFrom_eq_none h]

/-- The `SEEK_SET` case of `Seek`. -/
theorem Seek_set_eq (b : Buffer) (offset : Int) :
    Seek b offset SEEK_SET =
      if wrapInt offset > 0 ∧ wrapInt offset ≥ len b.data then
        ⟨b, -1, some (Error.invalidOffset offset)⟩
      else ⟨{ b with pos := wrapInt offset }, wrapInt offset, none⟩ := by
  simp [Seek, SEEK_SET, SEEK_CUR]

/-- The `SEEK_CUR` case of `Seek`. -/
theorem Seek_cur_eq (b : Buffer) (offset : Int) :
    Seek b offset SEEK_CUR =
      if wrapInt offset > 0 ∧ wrapInt (b.pos + wrapInt offset) ≥ len b.data then
        ⟨b, -1, some (Error.invalidOffset offset)⟩
      else ⟨{ b with pos := wrapInt (b.pos + wrapInt offset) },
        wrapInt (b.pos + wrapInt offset), none⟩ := by
  simp [Seek, SEEK_CUR]

/-- The `SEEK_END` case of `Seek`. -/
theorem Seek_end_eq (b : Buffer) (offset : Int) :
    Seek b offset SEEK_END =
      if wrapInt (len b.data + wrapInt offset) < 0 then
        ⟨b, -1, some (Error.invalidOffset offset)⟩
      else ⟨{ b with pos := wrapInt (len b.data + wrapInt offset) },
        wrapInt (len b.data + wrapInt offset), none⟩ := by
  simp [Seek, SEEK_SET, SEEK_CUR, SEEK_END]

/-- What lies from index `k` on in the store left by an in-range `Write`. -/
theorem drop_written (d p : List Byte) (k : Nat) (hk : k ≤ d.length) :
    (d.take k ++ p ++ d.drop (k + p.length)).drop k = p ++ d.drop (k + p.length) := by
  have hlen : (d.take k).length = k := by
    rw [List.length_take]
    omega
  have hd := List.drop_left (d.take k) (p ++ d.drop (k + p.length))
  rw [hlen] at hd
  rw [List.append_assoc]
  exact hd


/-- Next to an empty store every slice reads as its contents. -/
theorem reread_nil (p : Slice) : p.reread [] = p.bytes := by
  unfold Slice.reread
  cases p.off with
  | none => rfl
  | some o => simp

/-- The `copy` of `Write` leaves every byte outside `[k, k + len(p))` as it
was. -/
theorem getElem?_after_copy (d p : List Byte) (k i : Nat) (hk : k ≤ d.length)
    (hi : i < d.length) (h : i < k ∨ k + p.length ≤ i) :
    (d.take k ++ copy (d.drop k) p)[i]? = d[i]? := by
  rcases h with hlt | hge
  · rw [List.getElem?_append_left (by simp; omega), List.getElem?_take_of_lt hlt]
  · have hn : copyLen (d.drop k) p = p.length := by
      unfold copyLen
      rw [List.length_drop]
      omega
    have htk : (d.take k).length = k := by
      rw [List.length_take]
      omega
    rw [List.getElem?_append_right (by omega), htk]
    unfold copy
    rw [hn, List.take_of_length_le (le_refl _),
      List.getElem?_append_right (by omega), List.getElem?_drop, List.getElem?_drop]
    congr 1
    omega

/-! ## Claims -/

/-- C1, round trip: starting from the empty buffer, `Write(S)`, then
`Seek(0, SEEK_SET)`, then `Read` into a destination of length `len(S)` all
return normally; the write reports `len(S)`, the seek position 0, and the read
reports count `len(S)` with no error and leaves exactly `S` in the
destination. `S` and the destination are any slices, with memory of their own
or sharing the store's. -/
theorem write_seek_read_roundtrip (S dest : Slice)
    (hd : dest.bytes.length = S.bytes.length) :
    ∃ b1 b2 b3 : Buffer,
      Write Buffer.empty S = some ⟨b1, len S.bytes, none⟩ ∧
      Seek b1 0 SEEK_SET = ⟨b2, 0, none⟩ ∧
      Read b2 dest = some ⟨b3, S.bytes, len S.bytes, none⟩ := by
  have hw : Write Buffer.empty S
      = some ⟨⟨S.bytes, wrapInt (len S.bytes)⟩, len S.bytes, none⟩ := by
    rw [Write_of_inRange Buffer.empty S (by decide)]
    simp [Buffer.empty, copy, copyLen, reread_nil]
  have hs : Seek ⟨S.bytes, wrapInt (len S.bytes)⟩ 0 SEEK_SET = ⟨⟨S.bytes, 0⟩, 0, none⟩ := by
    simp [Seek, SEEK_SET, SEEK_CUR, wrapInt]
  by_cases hS : S.bytes = []
  · have hdn : dest.bytes = [] := List.length_eq_zero.mp (by rw [hd, hS]; rfl)
    refine ⟨_, _, ⟨S.bytes, 0⟩, hw, hs, ?_⟩
    simp [Read, len, hdn, hS]
  · have hpos : 0 < S.bytes.length := List.length_pos.mpr hS
    have hp : ¬ len dest.bytes = 0 := by unfold len; omega
    have hrest : ¬ len ((Buffer.mk S.bytes 0).data.drop (Buffer.mk S.bytes 0).pos.toNat) ≤ 0 := by
      unfold len
      simp only [Int.toNat_zero, List.drop_zero]
      omega
    have hread := Read_of_remaining ⟨S.bytes, 0⟩ dest hp (le_refl _)
      (by unfold len; simp) hrest
    simp only [Int.toNat_zero, List.drop_zero] at hread
    have hcl : copyLen dest.bytes S.bytes = S.bytes.length := by
      unfold copyLen
      omega
    have hcopy : copy dest.bytes S.bytes = S.bytes := by
      unfold copy
      rw [hcl, List.take_of_length_le (le_refl _), List.drop_of_length_le (by omega),
        List.append_nil]
    rw [hcl, hcopy] at hread
    exact ⟨_, _, _, hw, hs, hread⟩

theorem write_seek_read_roundtrip_witness :
    (Slice.own [0, 0, 0]).bytes.length = (Slice.own [102, 111, 111]).bytes.length ∧
    ∃ b1 b2 b3 : Buffer,
      Write Buffer.empty (Slice.own [102, 111, 111])
        = some ⟨b1, len (Slice.own [102, 111, 111]).bytes, none⟩ ∧
      Seek b1 0 SEEK_SET = ⟨b2, 0, none⟩ ∧
      Read b2 (Slice.own [0, 0, 0])
        = some ⟨b3, (Slice.own [102, 111, 111]).bytes,
            len (Slice.own [102, 111, 111]).bytes, none⟩ :=
  ⟨by decide,
    write_seek_read_roundtrip (Slice.own [102, 111, 111]) (Slice.own [0, 0, 0]) (by decide)⟩

/-- C2 as stated fails: take `p := b.Bytes()` on the store `[1, 2, 3]` at
position 0, seek to 2 and `Write(p)`. `copy` overwrites byte 2 of the store,
which is also `p[2]`, before `p[1:]` is appended, and the store ends as
`[1, 2, 1, 2, 1]`, not `data[0:2] ++ [1, 2, 3]`. -/
theorem write_aliased_source :
    Bytes ⟨[1, 2, 3], 0⟩ = some ⟨⟨[1, 2, 3], 0⟩, ⟨[1, 2, 3], some 0⟩⟩ ∧
    Seek ⟨[1, 2, 3], 0⟩ 2 SEEK_SET = ⟨⟨[1, 2, 3], 2⟩, 2, none⟩ ∧
    InRange ⟨[1, 2, 3], 2⟩ ∧
    (Slice.mk [1, 2, 3] (some 0)).ValidFor [1, 2, 3] ∧
    Write ⟨[1, 2, 3], 2⟩ ⟨[1, 2, 3], some 0⟩ = some ⟨⟨[1, 2, 1, 2, 1], 5⟩, 3, none⟩ ∧
    ([1, 2, 1, 2, 1] : List Byte)
      ≠ List.take 2 [1, 2, 3] ++ [1, 2, 3] ++ List.drop (2 + 3) [1, 2, 3] := by
  decide

/-- C2 amended, write content: when `0 <= pos <= len(data)`, `Write(src)`
returns normally; if `src` shares no memory with the store, the store is left
as `data[0:pos] ++ src ++ data[pos+L:]` (the last part empty when
`pos+L >= len(data)`); and for every `src`, every old byte at an index outside
`[pos, pos+L)` is untouched, the new length is `max(len(data), pos+L)`, and
the store does not shrink. -/
theorem write_content (b : Buffer) (src : Slice)
    (h0 : 0 ≤ b.pos) (h1 : b.pos ≤ len b.data) :
    ∃ r : Result, Write b src = some r ∧
      (src.off = none → r.buf.data
        = b.data.take b.pos.toNat ++ src.bytes ++ b.data.drop (b.pos.toNat + src.bytes.length)) ∧
      (b.pos + len src.bytes ≥ len b.data →
        b.data.drop (b.pos.toNat + src.bytes.length) = []) ∧
      (∀ i : Nat, i < b.data.length →
        (i < b.pos.toNat ∨ b.pos.toNat + src.bytes.length ≤ i) →
        r.buf.data[i]? = b.data[i]?) ∧
      len r.buf.data = max (len b.data) (b.pos + len src.bytes) ∧
      len b.data ≤ len r.buf.data := by
  have hk : b.pos.toNat ≤ b.data.length := toNat_le_length h0 h1
  have hlenw := length_written b.data src b.pos.toNat hk
  refine ⟨_, Write_of_inRange b src ⟨h0, h1⟩, ?_, ?_, ?_, ?_, ?_⟩
  · intro hown
    show b.data.take b.pos.toNat ++ copy (b.data.drop b.pos.toNat) src.bytes
      ++ (src.reread (b.data.take b.pos.toNat ++ copy (b.data.drop b.pos.toNat) src.bytes)).drop
          (copyLen (b.data.drop b.pos.toNat) src.bytes) = _
    rw [reread_of_own src _ hown]
    exact write_data_eq b.data src.bytes b.pos.toNat hk
  · intro h
    apply List.drop_of_length_le
    unfold len at h
    omega
  · intro i hi hcase
    show (b.data.take b.pos.toNat ++ copy (b.data.drop b.pos.toNat) src.bytes
      ++ (src.reread (b.data.take b.pos.toNat ++ copy (b.data.drop b.pos.toNat) src.bytes)).drop
          (copyLen (b.data.drop b.pos.toNat) src.bytes))[i]? = b.data[i]?
    rw [List.getElem?_append_left
      (by rw [length_after_copy b.data src.bytes b.pos.toNat hk]; exact hi)]
    exact getElem?_after_copy b.data src.bytes b.pos.toNat i hk hi hcase
  · show len (b.data.take b.pos.toNat ++ copy (b.data.drop b.pos.toNat) src.bytes
      ++ (src.reread (b.data.take b.pos.toNat ++ copy (b.data.drop b.pos.toNat) src.bytes)).drop
          (copyLen (b.data.drop b.pos.toNat) src.bytes)) = _
    unfold len at h1 ⊢
    rw [hlenw]
    omega
  · show len b.data ≤ len (b.data.take b.pos.toNat ++ copy (b.data.drop b.pos.toNat) src.bytes
      ++ (src.reread (b.data.take b.pos.toNat ++ copy (b.data.drop b.pos.toNat) src.bytes)).drop
          (copyLen (b.data.drop b.pos.toNat) src.bytes))
    unfold len
    rw [hlenw]
    omega

theorem write_content_witness :
    (0 : Int) ≤ (Buffer.mk [1, 2, 3, 4] 1).pos ∧
    ∃ r : Result, Write ⟨[1, 2, 3, 4], 1⟩ (Slice.own [8, 9]) = some r ∧
      r.buf.data = [1, 8, 9, 4] :=
  ⟨by decide, by
    obtain ⟨r, hr, hd, _⟩ :=
      write_content ⟨[1, 2, 3, 4], 1⟩ (Slice.own [8, 9]) (by decide) (by decide)
    exact ⟨r, hr, by rw [hd rfl]; decide⟩⟩

/-- C3, write on a reachable state: on the empty buffer `Seek(1, SEEK_END)`
succeeds and leaves the position 1 past the end of the empty store, and the
following `Write` of one byte does not return: `b.data[b.pos:]` panics. The
same happens after `Seek(-1, SEEK_SET)`, which succeeds and leaves the
position at -1. -/
theorem write_panics_after_seek :
    Seek Buffer.empty 1 SEEK_END = ⟨⟨[], 1⟩, 1, none⟩ ∧
    Write ⟨[], 1⟩ (Slice.own [7]) = none ∧
    Seek Buffer.empty (-1) SEEK_SET = ⟨⟨[], -1⟩, -1, none⟩ ∧
    Write ⟨[], -1⟩ (Slice.own [7]) = none := by
  decide

/-- C4, read copies the remaining bytes: when `0 <= pos < len(data)` (the
store being a Go slice, `len(data) <= maxInt`) and the destination has length
`L > 0`, `Read` returns normally with no error and count
`n = min(L, len(data) - pos)`; the first `n` bytes of the destination are
`data[pos : pos+n]` of the store as it was when the call was made, the rest of
the destination is unchanged, and the position advances by exactly `n`. The
destination is any slice; the length of the store is unchanged, and so is the
store when the destination shares no memory with it. -/
theorem read_copies_remaining (b : Buffer) (p : Slice)
    (h0 : 0 ≤ b.pos) (h1 : b.pos < len b.data) (hL : 0 < len p.bytes)
    (hlen : len b.data ≤ maxInt) :
    ∃ r : ReadResult, Read b p = some r ∧
      r.err = none ∧
      r.n = min (len p.bytes) (len b.data - b.pos) ∧
      r.p.take r.n.toNat = (b.data.drop b.pos.toNat).take r.n.toNat ∧
      r.p.drop r.n.toNat = p.bytes.drop r.n.toNat ∧
      r.buf.pos = b.pos + r.n ∧
      len r.buf.data = len b.data ∧
      (p.off = none → r.buf.data = b.data) := by
  have hk : b.pos.toNat < b.data.length := by unfold len at h1; omega
  have hp : ¬ len p.bytes = 0 := by omega
  have hrest : ¬ len (b.data.drop b.pos.toNat) ≤ 0 := by
    unfold len
    rw [List.length_drop]
    omega
  have hn : ((copyLen p.bytes (b.data.drop b.pos.toNat) : Nat) : Int)
      = min (len p.bytes) (len b.data - b.pos) := by
    unfold copyLen len
    rw [List.length_drop]
    omega
  refine ⟨_, Read_of_remaining b p hp h0 (le_of_lt h1) hrest, rfl, hn, ?_, ?_, ?_, ?_, ?_⟩
  · show (copy p.bytes (b.data.drop b.pos.toNat)).take
        (copyLen p.bytes (b.data.drop b.pos.toNat) : Int).toNat = _
    rw [Int.toNat_natCast]
    unfold copy
    rw [List.take_append_of_le_length (by unfold copyLen; simp)]
    simp
  · show (copy p.bytes (b.data.drop b.pos.toNat)).drop
        (copyLen p.bytes (b.data.drop b.pos.toNat) : Int).toNat = _
    rw [Int.toNat_natCast]
    unfold copy
    rw [List.drop_append_of_le_length (by unfold copyLen; simp)]
    have hz : List.drop (copyLen p.bytes (b.data.drop b.pos.toNat))
        (List.take (copyLen p.bytes (b.data.drop b.pos.toNat)) (b.data.drop b.pos.toNat)) = [] :=
      List.drop_of_length_le (by simp)
    rw [hz, List.nil_append]
  · show wrapInt (b.pos + (copyLen p.bytes (b.data.drop b.pos.toNat) : Int)) = _
    apply wrapInt_of_isInt
    rw [hn]
    unfold IsInt minInt
    unfold maxInt at hlen
    unfold maxInt
    omega
  · show len (storeAfterCopyInto p b.data _) = len b.data
    unfold len
    rw [length_storeAfterCopyInto]
  · intro hown
    exact storeAfterCopyInto_of_own p b.data _ hown

theorem read_copies_remaining_witness :
    (0 : Int) < len (Slice.own [0, 0, 0, 0]).bytes ∧
    ∃ r : ReadResult, Read ⟨[1, 2, 3], 1⟩ (Slice.own [0, 0, 0, 0]) = some r ∧
      r.err = none ∧ r.n = 2 ∧ r.buf.pos = 3 :=
  ⟨by decide, by
    obtain ⟨r, hr, he, hn, _, _, hp, _⟩ :=
      read_copies_remaining ⟨[1, 2, 3], 1⟩ (Slice.own [0, 0, 0, 0])
        (by decide) (by decide) (by decide) (by decide)
    refine ⟨r, hr, he, ?_, ?_⟩
    · rw [hn]; decide
    · rw [hp, hn]; decide⟩

/-- C5, end of data exactly when nothing remains: when `0 <= pos <= len(data)`,
`Read` returns normally, and its error is `io.EOF` if and only if the
destination is not empty and `pos == len(data)`; a call that returns `io.EOF`
returns count 0 and leaves the buffer (position and store) and the destination
as they were. No other error is returned. The destination is any slice. -/
theorem read_eof_iff (b : Buffer) (p : Slice)
    (h0 : 0 ≤ b.pos) (h1 : b.pos ≤ len b.data) :
    ∃ r : ReadResult, Read b p = some r ∧
      (r.err = some Error.EOF ↔ (0 < len p.bytes ∧ b.pos = len b.data)) ∧
      (r.err = some Error.EOF → r.n = 0 ∧ r.buf = b ∧ r.p = p.bytes) ∧
      (r.err = none ∨ r.err = some Error.EOF) := by
  by_cases hp : len p.bytes = 0
  · refine ⟨⟨b, p.bytes, 0, none⟩, by rw [Read, if_pos hp], ?_, ?_, Or.inl rfl⟩
    · constructor
      · intro h; cases h
      · intro h; omega
    · intro h; cases h
  · have hpos : 0 < len p.bytes := by unfold len at hp ⊢; omega
    by_cases hrest : len (b.data.drop b.pos.toNat) ≤ 0
    · refine ⟨⟨b, p.bytes, 0, some Error.EOF⟩,
        by rw [Read, if_neg hp, sliceFrom_of_le h0 h1]; simp only [if_pos hrest], ?_, ?_,
        Or.inr rfl⟩
      · refine ⟨fun _ => ⟨hpos, ?_⟩, fun _ => rfl⟩
        unfold len at hrest h1 ⊢
        rw [List.length_drop] at hrest
        omega
      · intro _; exact ⟨rfl, rfl, rfl⟩
    · refine ⟨_, Read_of_remaining b p hp h0 h1 hrest, ?_, ?_, Or.inl rfl⟩
      · constructor
        · intro h; cases h
        · rintro ⟨_, heq⟩
          exfalso
          apply hrest
          unfold len at heq ⊢
          rw [List.length_drop]
          omega
      · intro h; cases h

theorem read_eof_iff_witness :
    (0 : Int) ≤ (Buffer.mk [1, 2, 3] 3).pos ∧
    ∃ r : ReadResult, Read ⟨[1, 2, 3], 3⟩ (Slice.own [0, 0]) = some r ∧
      r.err = some Error.EOF :=
  ⟨by decide, by
    obtain ⟨r, hr, hiff, _⟩ :=
      read_eof_iff ⟨[1, 2, 3], 3⟩ (Slice.own [0, 0]) (by decide) (by decide)
    exact ⟨r, hr, hiff.mpr (by decide)⟩⟩

/-- C6, seek from start: for every buffer and every `int64` offset,
`Seek(offset, SEEK_SET)` returns the invalid-offset error if and only if
`offset > 0` and `offset >= len(data)`; otherwise it returns no error, sets
the position to `offset` and returns `offset`, the store being unchanged. -/
theorem seek_start (b : Buffer) (offset : Int) (hoff : IsInt offset) :
    ((Seek b offset SEEK_SET).err = some (Error.invalidOffset offset) ↔
      (offset > 0 ∧ offset ≥ len b.data)) ∧
    (¬ (offset > 0 ∧ offset ≥ len b.data) →
      Seek b offset SEEK_SET = ⟨{ b with pos := offset }, offset, none⟩) := by
  have hw : wrapInt offset = offset := wrapInt_of_isInt hoff
  by_cases hc : offset > 0 ∧ offset ≥ len b.data
  · refine ⟨⟨fun _ => hc, fun _ => ?_⟩, fun h => absurd hc h⟩
    simp [Seek, SEEK_SET, SEEK_CUR, hw, hc]
  · have hs : Seek b offset SEEK_SET = ⟨{ b with pos := offset }, offset, none⟩ := by
      simp only [Seek, SEEK_SET, SEEK_CUR, hw]
      rw [if_pos trivial, if_neg hc]
      rw [if_neg (by decide)]
    refine ⟨⟨fun h => ?_, fun h => absurd h hc⟩, fun _ => hs⟩
    rw [hs] at h
    cases h

theorem seek_start_witness :
    IsInt 6 ∧
    ((Seek ⟨[1, 2, 3, 4, 5, 6], 6⟩ 6 SEEK_SET).err = some (Error.invalidOffset 6) ↔
      ((6 : Int) > 0 ∧ (6 : Int) ≥ len [1, 2, 3, 4, 5, 6])) :=
  ⟨by decide, (seek_start ⟨[1, 2, 3, 4, 5, 6], 6⟩ 6 (by decide)).1⟩

/-- C7 as stated fails: with one byte stored and the position at 1,
`Seek(maxInt, SEEK_CUR)` has `offset > 0` and `pos + offset >= len(data)`, yet
the machine addition `b.pos+o` wraps to `minInt`, the guard is false, and the
call returns no error and leaves the position at `minInt`. -/
theorem seek_current_wraps :
    IsInt maxInt ∧ IsInt (Buffer.mk [0] 1).pos ∧
    (maxInt > 0 ∧ (Buffer.mk [0] 1).pos + maxInt ≥ len (Buffer.mk [0] 1).data) ∧
    Seek ⟨[0], 1⟩ maxInt SEEK_CUR = ⟨⟨[0], minInt⟩, minInt, none⟩ ∧
    ¬ ((Seek ⟨[0], 1⟩ maxInt SEEK_CUR).err = some (Error.invalidOffset maxInt) ↔
      (maxInt > 0 ∧ (Buffer.mk [0] 1).pos + maxInt ≥ len (Buffer.mk [0] 1).data)) := by
  decide

/-- C7 amended, seek from current: for every buffer and every `int64` offset
such that `pos + offset` is representable as an `int`,
`Seek(offset, SEEK_CUR)` returns the invalid-offset error if and only if
`offset > 0` and `pos + offset >= len(data)`; otherwise it returns no error,
sets the position to `pos + offset` and returns that value, the store being
unchanged. -/
theorem seek_current (b : Buffer) (offset : Int) (hoff : IsInt offset)
    (hsum : IsInt (b.pos + offset)) :
    ((Seek b offset SEEK_CUR).err = some (Error.invalidOffset offset) ↔
      (offset > 0 ∧ b.pos + offset ≥ len b.data)) ∧
    (¬ (offset > 0 ∧ b.pos + offset ≥ len b.data) →
      Seek b offset SEEK_CUR = ⟨{ b with pos := b.pos + offset }, b.pos + offset, none⟩) := by
  have hw : wrapInt offset = offset := wrapInt_of_isInt hoff
  have hws : wrapInt (b.pos + offset) = b.pos + offset := wrapInt_of_isInt hsum
  by_cases hc : offset > 0 ∧ b.pos + offset ≥ len b.data
  · refine ⟨⟨fun _ => hc, fun _ => ?_⟩, fun h => absurd hc h⟩
    simp [Seek, SEEK_CUR, hw, hws, hc]
  · have hs : Seek b offset SEEK_CUR
        = ⟨{ b with pos := b.pos + offset }, b.pos + offset, none⟩ := by
      simp only [Seek, SEEK_CUR, hw, hws]
      rw [if_pos trivial, if_neg hc]
    refine ⟨⟨fun h => ?_, fun h => absurd h hc⟩, fun _ => hs⟩
    rw [hs] at h
    cases h

theorem seek_current_witness :
    IsInt 1 ∧ IsInt ((Buffer.mk [1, 2, 3, 4, 5, 6] 3).pos + 1) ∧
    Seek ⟨[1, 2, 3, 4, 5, 6], 3⟩ 1 SEEK_CUR = ⟨⟨[1, 2, 3, 4, 5, 6], 4⟩, 4, none⟩ :=
  ⟨by decide, by decide,
    (seek_current ⟨[1, 2, 3, 4, 5, 6], 3⟩ 1 (by decide) (by decide)).2 (by decide)⟩

/-- C8 as stated fails: with one byte stored, `Seek(maxInt, SEEK_END)` has
`len(data) + offset >= 0`, yet the machine addition `len(b.data)+o` wraps to
`minInt`, the guard `< 0` is true, and the call returns the invalid-offset
error and leaves the position where it was. -/
theorem seek_end_wraps :
    IsInt maxInt ∧
    ¬ (len (Buffer.mk [0] 1).data + maxInt < 0) ∧
    Seek ⟨[0], 1⟩ maxInt SEEK_END = ⟨⟨[0], 1⟩, -1, some (Error.invalidOffset maxInt)⟩ ∧
    ¬ ((Seek ⟨[0], 1⟩ maxInt SEEK_END).err = some (Error.invalidOffset maxInt) ↔
      len (Buffer.mk [0] 1).data + maxInt < 0) := by
  decide

/-- C8 amended, seek from end: for every buffer and every `int64` offset such
that `len(data) + offset` is representable as an `int`,
`Seek(offset, SEEK_END)` returns the invalid-offset error if and only if
`len(data) + offset < 0`; otherwise it returns no error, sets the position to
`len(data) + offset` and returns that value, the store being unchanged. There
is no upper bound: a positive offset succeeds and leaves the position past the
end. -/
theorem seek_end (b : Buffer) (offset : Int) (hoff : IsInt offset)
    (hsum : IsInt (len b.data + offset)) :
    ((Seek b offset SEEK_END).err = some (Error.invalidOffset offset) ↔
      len b.data + offset < 0) ∧
    (¬ (len b.data + offset < 0) →
      Seek b offset SEEK_END
        = ⟨{ b with pos := len b.data + offset }, len b.data + offset, none⟩) ∧
    (offset > 0 → (Seek b offset SEEK_END).err = none ∧
      (Seek b offset SEEK_END).buf.pos > len b.data) := by
  have hw : wrapInt offset = offset := wrapInt_of_isInt hoff
  have hws : wrapInt (len b.data + offset) = len b.data + offset := wrapInt_of_isInt hsum
  have hlen : 0 ≤ len b.data := by unfold len; omega
  by_cases hc : len b.data + offset < 0
  · refine ⟨⟨fun _ => hc, fun _ => ?_⟩, fun h => absurd hc h, fun h => by omega⟩
    simp [Seek, SEEK_END, SEEK_SET, SEEK_CUR, hw, hws, hc]
  · have hs : Seek b offset SEEK_END
        = ⟨{ b with pos := len b.data + offset }, len b.data + offset, none⟩ := by
      simp only [Seek, SEEK_END, SEEK_SET, SEEK_CUR, hw, hws]
      rw [if_pos trivial, if_neg hc]
      rw [if_neg (by decide), if_neg (by decide)]
    refine ⟨⟨fun h => ?_, fun h => absurd h hc⟩, fun _ => hs, fun h => ?_⟩
    · rw [hs] at h
      cases h
    · rw [hs]
      refine ⟨rfl, ?_⟩
      show len b.data + offset > len b.data
      omega

theorem seek_end_witness :
    IsInt (-1) ∧ IsInt (len (Buffer.mk [1, 2, 3, 4, 5, 6] 6).data + -1) ∧
    Seek ⟨[1, 2, 3, 4, 5, 6], 6⟩ (-1) SEEK_END = ⟨⟨[1, 2, 3, 4, 5, 6], 5⟩, 5, none⟩ :=
  ⟨by decide, by decide,
    (seek_end ⟨[1, 2, 3, 4, 5, 6], 6⟩ (-1) (by decide) (by decide)).2.1 (by decide)⟩

/-- C9, seek is atomic on failure: for every buffer, offset and whence,
whenever `Seek` returns an error it returns -1 and leaves the buffer
(position and store) exactly as it was. -/
theorem seek_failure_atomic (b : Buffer) (offset whence : Int)
    (herr : (Seek b offset whence).err ≠ none) :
    (Seek b offset whence).n = -1 ∧ (Seek b offset whence).buf = b := by
  unfold Seek at herr ⊢
  simp only at herr ⊢
  split_ifs at herr ⊢ <;> first
    | exact ⟨rfl, rfl⟩
    | exact absurd rfl herr

theorem seek_failure_atomic_witness :
    (Seek ⟨[1, 2, 3], 0⟩ 3 SEEK_SET).err ≠ none ∧
    (Seek ⟨[1, 2, 3], 0⟩ 3 SEEK_SET).n = -1 ∧
    (Seek ⟨[1, 2, 3], 0⟩ 3 SEEK_SET).buf = ⟨[1, 2, 3], 0⟩ :=
  ⟨by decide, seek_failure_atomic ⟨[1, 2, 3], 0⟩ 3 SEEK_SET (by decide)⟩

/-- C10, invalid mode: for every buffer, every offset and every whence other
than 0 (start), 1 (current) and 2 (end), `Seek` returns the invalid-whence
error and -1, and leaves the buffer, hence the position, unchanged. -/
theorem seek_invalid_whence (b : Buffer) (offset whence : Int)
    (h0 : whence ≠ 0) (h1 : whence ≠ 1) (h2 : whence ≠ 2) :
    Seek b offset whence = ⟨b, -1, some (Error.invalidWhence whence)⟩ ∧
    (Seek b offset whence).buf.pos = b.pos := by
  have hs : Seek b offset whence = ⟨b, -1, some (Error.invalidWhence whence)⟩ := by
    simp only [Seek, SEEK_SET, SEEK_CUR, SEEK_END]
    rw [if_neg h1, if_neg h0, if_neg h2]
  exact ⟨hs, by rw [hs]⟩

theorem seek_invalid_whence_witness :
    (3 : Int) ≠ 0 ∧
    Seek ⟨[1, 2, 3], 2⟩ 1 3 = ⟨⟨[1, 2, 3], 2⟩, -1, some (Error.invalidWhence 3)⟩ :=
  ⟨by decide, (seek_invalid_whence ⟨[1, 2, 3], 2⟩ 1 3 (by decide) (by decide) (by decide)).1⟩

/-- C11, cursor invariant: the code breaks it. On the newly created buffer
`Seek(-1, SEEK_SET)` returns no error and leaves the position at -1, so
`0 <= pos` fails in a reachable state; and `Seek(1, SEEK_END)` returns no
error and leaves the position at 1 although the store is empty, so after a
successful seek neither `pos <= len(data)` nor `pos == 0` on an empty store
holds. -/
theorem seek_breaks_cursor_invariant :
    (Seek Buffer.empty (-1) SEEK_SET).err = none ∧
    (Seek Buffer.empty (-1) SEEK_SET).buf.pos = -1 ∧
    ¬ (0 ≤ (Seek Buffer.empty (-1) SEEK_SET).buf.pos) ∧
    (Seek Buffer.empty 1 SEEK_END).err = none ∧
    (Seek Buffer.empty 1 SEEK_END).buf.data = [] ∧
    (Seek Buffer.empty 1 SEEK_END).buf.pos = 1 ∧
    ¬ InRange (Seek Buffer.empty 1 SEEK_END).buf := by
  decide

/-- C12, read past the end: the code panics instead of returning `io.EOF`.
On the newly created buffer `Seek(1, SEEK_END)` returns no error and leaves
the position 1 past the end of the empty store, and `Read` into a one-byte
destination then does not return; the same after writing three bytes and
`Seek(2, SEEK_END)`. At `pos == len(data)` the same read does return
`(0, io.EOF)`. -/
theorem read_panics_past_end :
    Seek Buffer.empty 1 SEEK_END = ⟨⟨[], 1⟩, 1, none⟩ ∧
    Read ⟨[], 1⟩ (Slice.own [0]) = none ∧
    Write Buffer.empty (Slice.own [1, 2, 3]) = some ⟨⟨[1, 2, 3], 3⟩, 3, none⟩ ∧
    Seek ⟨[1, 2, 3], 3⟩ 2 SEEK_END = ⟨⟨[1, 2, 3], 5⟩, 5, none⟩ ∧
    Read ⟨[1, 2, 3], 5⟩ (Slice.own [0]) = none ∧
    Read ⟨[1, 2, 3], 3⟩ (Slice.own [0])
      = some ⟨⟨[1, 2, 3], 3⟩, [0], 0, some Error.EOF⟩ := by
  decide

/-- C13, overwrite semantics: for `len(S2) <= len(S1)`, starting from the
empty buffer, `Write(S1)`, `Seek(0, SEEK_SET)`, `Write(S2)`,
`Seek(0, SEEK_SET)` all return normally without error, and `Bytes()` is then
`S2 ++ S1[len(S2):]`, of length `len(S1)`, a window of the store from index 0,
the buffer being left as it was. `S1` and `S2` are any slices, with memory of
their own or sharing the store's. -/
theorem seek_overwrite (S1 S2 : Slice) (hle : S2.bytes.length ≤ S1.bytes.length) :
    ∃ b1 b2 b3 b4 : Buffer,
      Write Buffer.empty S1 = some ⟨b1, len S1.bytes, none⟩ ∧
      Seek b1 0 SEEK_SET = ⟨b2, 0, none⟩ ∧
      Write b2 S2 = some ⟨b3, len S2.bytes, none⟩ ∧
      Seek b3 0 SEEK_SET = ⟨b4, 0, none⟩ ∧
      Bytes b4 = some ⟨b4, ⟨S2.bytes ++ S1.bytes.drop S2.bytes.length, some 0⟩⟩ ∧
      len (S2.bytes ++ S1.bytes.drop S2.bytes.length) = len S1.bytes := by
  have hseek : ∀ (d : List Byte) (q : Int), Seek ⟨d, q⟩ 0 SEEK_SET = ⟨⟨d, 0⟩, 0, none⟩ := by
    intro d q
    simp [Seek, SEEK_SET, SEEK_CUR, wrapInt]
  have hw1 : Write Buffer.empty S1
      = some ⟨⟨S1.bytes, wrapInt (len S1.bytes)⟩, len S1.bytes, none⟩ := by
    rw [Write_of_inRange Buffer.empty S1 (by decide)]
    simp [Buffer.empty, copy, copyLen, reread_nil]
  have hcl : copyLen S1.bytes S2.bytes = S2.bytes.length := by
    unfold copyLen
    omega
  have hcopy : copy S1.bytes S2.bytes = S2.bytes ++ S1.bytes.drop S2.bytes.length := by
    unfold copy
    rw [hcl, List.take_of_length_le (le_refl _)]
  have hw2 : Write ⟨S1.bytes, 0⟩ S2
      = some ⟨⟨S2.bytes ++ S1.bytes.drop S2.bytes.length, wrapInt (len S2.bytes)⟩,
          len S2.bytes, none⟩ := by
    rw [Write_of_inRange ⟨S1.bytes, 0⟩ S2 ⟨le_refl _, by unfold len; simp⟩]
    have hdrop : ∀ d : List Byte, (S2.reread d).drop S2.bytes.length = [] :=
      fun d => List.drop_of_length_le (by rw [length_reread])
    simp only [Int.toNat_zero, List.take_zero, List.drop_zero, List.nil_append, hcl, hcopy,
      hdrop, List.append_nil, zero_add]
  refine ⟨_, _, _, _, hw1, hseek _ _, hw2, hseek _ _, ?_, ?_⟩
  · simp only [Bytes]
    rw [sliceFrom_of_le (le_refl _) (by unfold len; omega)]
    simp
  · unfold len
    simp only [List.length_append, List.length_drop]
    omega

theorem seek_overwrite_witness :
    (Slice.own [98, 97, 122]).bytes.length
      ≤ (Slice.own [102, 111, 111, 98, 97, 114]).bytes.length ∧
    ∃ b1 b2 b3 b4 : Buffer,
      Write Buffer.empty (Slice.own [102, 111, 111, 98, 97, 114])
        = some ⟨b1, len (Slice.own [102, 111, 111, 98, 97, 114]).bytes, none⟩ ∧
      Seek b1 0 SEEK_SET = ⟨b2, 0, none⟩ ∧
      Write b2 (Slice.own [98, 97, 122]) = some ⟨b3, len (Slice.own [98, 97, 122]).bytes, none⟩ ∧
      Seek b3 0 SEEK_SET = ⟨b4, 0, none⟩ ∧
      Bytes b4 = some ⟨b4, ⟨(Slice.own [98, 97, 122]).bytes
        ++ List.drop (Slice.own [98, 97, 122]).bytes.length
            (Slice.own [102, 111, 111, 98, 97, 114]).bytes, some 0⟩⟩ ∧
      len ((Slice.own [98, 97, 122]).bytes
        ++ List.drop (Slice.own [98, 97, 122]).bytes.length
            (Slice.own [102, 111, 111, 98, 97, 114]).bytes)
        = len (Slice.own [102, 111, 111, 98, 97, 114]).bytes :=
  ⟨by decide,
    seek_overwrite (Slice.own [102, 111, 111, 98, 97, 114]) (Slice.own [98, 97, 122])
      (by decide)⟩

/-- C14, append growth: starting from the empty buffer, `Write(A)` then
`Write(B)` with no seek in between each return their full length and no
error, and after `Seek(0, SEEK_SET)` `Bytes()` is `A ++ B`, a window of the
store from index 0, the buffer being left as it was. `A` and `B` are any
slices (`A` is a Go slice, so `len(A) <= maxInt`; `B`, if it shares memory
with the store `A` has left, holds what that memory holds). -/
theorem write_write_appends (A B : Slice) (hA : len A.bytes ≤ maxInt)
    (hB : B.ValidFor A.bytes) :
    ∃ b1 b2 b3 : Buffer,
      Write Buffer.empty A = some ⟨b1, len A.bytes, none⟩ ∧
      Write b1 B = some ⟨b2, len B.bytes, none⟩ ∧
      Seek b2 0 SEEK_SET = ⟨b3, 0, none⟩ ∧
      Bytes b3 = some ⟨b3, ⟨A.bytes ++ B.bytes, some 0⟩⟩ := by
  have hlenA : 0 ≤ len A.bytes := by unfold len; omega
  have hwA : wrapInt (len A.bytes) = len A.bytes :=
    wrapInt_of_isInt ⟨by unfold minInt; omega, hA⟩
  have hw1 : Write Buffer.empty A = some ⟨⟨A.bytes, len A.bytes⟩, len A.bytes, none⟩ := by
    rw [Write_of_inRange Buffer.empty A (by decide)]
    simp [Buffer.empty, copy, copyLen, reread_nil, hwA]
  have hnat : (len A.bytes).toNat = A.bytes.length := by unfold len; omega
  have hw2 : Write ⟨A.bytes, len A.bytes⟩ B
      = some ⟨⟨A.bytes ++ B.bytes, wrapInt (len A.bytes + len B.bytes)⟩,
          len B.bytes, none⟩ := by
    rw [Write_of_inRange ⟨A.bytes, len A.bytes⟩ B ⟨hlenA, le_refl _⟩]
    simp [hnat, copy, copyLen, reread_of_valid B A.bytes hB]
  refine ⟨_, _, ⟨A.bytes ++ B.bytes, 0⟩, hw1, hw2, ?_, ?_⟩
  · simp [Seek, SEEK_SET, SEEK_CUR, wrapInt]
  · simp only [Bytes]
    rw [sliceFrom_of_le (le_refl _) (by unfold len; omega)]
    simp

theorem write_write_appends_witness :
    len (Slice.own [102, 111, 111]).bytes ≤ maxInt ∧
    (Slice.own [113, 117, 120]).ValidFor (Slice.own [102, 111, 111]).bytes ∧
    ∃ b1 b2 b3 : Buffer,
      Write Buffer.empty (Slice.own [102, 111, 111])
        = some ⟨b1, len (Slice.own [102, 111, 111]).bytes, none⟩ ∧
      Write b1 (Slice.own [113, 117, 120])
        = some ⟨b2, len (Slice.own [113, 117, 120]).bytes, none⟩ ∧
      Seek b2 0 SEEK_SET = ⟨b3, 0, none⟩ ∧
      Bytes b3 = some ⟨b3, ⟨(Slice.own [102, 111, 111]).bytes
        ++ (Slice.own [113, 117, 120]).bytes, some 0⟩⟩ :=
  ⟨by decide, by decide,
    write_write_appends (Slice.own [102, 111, 111]) (Slice.own [113, 117, 120])
      (by decide) (by decide)⟩

/-- C15, zero-length read is a no-op: in every buffer state, whatever the
position (in range, at the end, negative or past the end), `Read` with a
destination of length 0, wherever its memory lies, returns `(0, nil)` and
leaves position and store unchanged. -/
theorem read_zero_length (b : Buffer) (off : Option Nat) :
    Read b ⟨[], off⟩ = some ⟨b, [], 0, none⟩ := by
  simp [Read, len]

/-- C16, view from cursor: when `0 <= pos <= len(data)`, `Bytes()` returns
`data[pos:]`, a window of the store from index `pos`, and leaves the buffer as
it was; its length is `len(data) - pos`; it is empty when the store is empty
or the position is at the end; and after a `Seek` that returns no error and an
absolute position `p` with `0 <= p <= len(data)`, `Bytes()` returns the last
`len(data) - p` bytes of the store. -/
theorem bytes_view (b : Buffer) (h : InRange b) :
    Bytes b = some ⟨b, ⟨b.data.drop b.pos.toNat, some b.pos.toNat⟩⟩ ∧
    (Slice.mk (b.data.drop b.pos.toNat) (some b.pos.toNat)).ValidFor b.data ∧
    len (b.data.drop b.pos.toNat) = len b.data - b.pos ∧
    (b.data = [] ∨ b.pos = len b.data → Bytes b = some ⟨b, ⟨[], some b.pos.toNat⟩⟩) ∧
    (∀ offset whence : Int, (Seek b offset whence).err = none →
      0 ≤ (Seek b offset whence).n → (Seek b offset whence).n ≤ len b.data →
      Bytes (Seek b offset whence).buf
        = some ⟨(Seek b offset whence).buf,
            ⟨b.data.drop (b.data.length - (len b.data - (Seek b offset whence).n).toNat),
              some (Seek b offset whence).n.toNat⟩⟩ ∧
      len (b.data.drop (b.data.length - (len b.data - (Seek b offset whence).n).toNat))
        = len b.data - (Seek b offset whence).n) := by
  have hB : Bytes b = some ⟨b, ⟨b.data.drop b.pos.toNat, some b.pos.toNat⟩⟩ := by
    rw [Bytes, sliceFrom_of_le h.1 h.2]
  have hh := h
  unfold InRange len at hh
  refine ⟨hB, ?_, ?_, ?_, ?_⟩
  · show b.pos.toNat ≤ b.data.length ∧
      ((b.data.drop b.pos.toNat).take (b.data.drop b.pos.toNat).length
        ++ (b.data.drop b.pos.toNat).drop (b.data.length - b.pos.toNat))
        = b.data.drop b.pos.toNat
    refine ⟨by omega, ?_⟩
    have hd : (b.data.drop b.pos.toNat).drop (b.data.length - b.pos.toNat) = [] :=
      List.drop_of_length_le (by rw [List.length_drop])
    rw [hd, List.append_nil]
    exact List.take_of_length_le (le_refl _)
  · unfold len
    rw [List.length_drop]
    omega
  · intro hcase
    have hnil : b.data.drop b.pos.toNat = [] := by
      apply List.drop_of_length_le
      rcases hcase with he | he
      · rw [he]; simp
      · unfold len at he; omega
    rw [hB, hnil]
  · intro offset whence herr hn0 hn1
    have hbuf : (Seek b offset whence).buf
        = ⟨b.data, (Seek b offset whence).n⟩ := by
      unfold Seek at herr ⊢
      simp only at herr ⊢
      split_ifs at herr ⊢ <;> rfl
    have hidx : b.data.length - (len b.data - (Seek b offset whence).n).toNat
        = (Seek b offset whence).n.toNat := by
      unfold len at hn1 ⊢
      omega
    rw [hidx]
    refine ⟨?_, ?_⟩
    · rw [hbuf, Bytes, sliceFrom_of_le hn0 hn1]
    · unfold len at hn1 ⊢
      rw [List.length_drop]
      omega

theorem bytes_view_witness :
    InRange ⟨[102, 111, 111, 98, 97, 114], 3⟩ ∧
    Bytes ⟨[102, 111, 111, 98, 97, 114], 3⟩
      = some ⟨⟨[102, 111, 111, 98, 97, 114], 3⟩,
          ⟨List.drop (Buffer.mk [102, 111, 111, 98, 97, 114] 3).pos.toNat
            (Buffer.mk [102, 111, 111, 98, 97, 114] 3).data,
            some (Buffer.mk [102, 111, 111, 98, 97, 114] 3).pos.toNat⟩⟩ :=
  ⟨by decide, (bytes_view ⟨[102, 111, 111, 98, 97, 114], 3⟩ (by decide)).1⟩

/-- C17 as stated fails: take `p := b.Bytes()` on the store `[1, 2, 3]` at
position 0, seek to 1 and `Read(p)`. `copy(p, b.data[1:])` writes the two
remaining bytes into `p`, whose memory is the store's, and the store is left
as `[2, 3, 3]`: a `Read` that succeeds has changed `data`. -/
theorem read_aliased_destination :
    Bytes ⟨[1, 2, 3], 0⟩ = some ⟨⟨[1, 2, 3], 0⟩, ⟨[1, 2, 3], some 0⟩⟩ ∧
    Seek ⟨[1, 2, 3], 0⟩ 1 SEEK_SET = ⟨⟨[1, 2, 3], 1⟩, 1, none⟩ ∧
    (Slice.mk [1, 2, 3] (some 0)).ValidFor [1, 2, 3] ∧
    Read ⟨[1, 2, 3], 1⟩ ⟨[1, 2, 3], some 0⟩
      = some ⟨⟨[2, 3, 3], 3⟩, [2, 3, 3], 2, none⟩ ∧
    (Buffer.mk [2, 3, 3] 3).data ≠ (Buffer.mk [1, 2, 3] 1).data := by
  decide

/-- C17 amended, only `Write` mutates the store: for every buffer state, a
`Read` that returns (with or without `io.EOF`) into a destination that shares
no memory with the store leaves the store unchanged; a `Read` into any
destination leaves the length of the store unchanged, and leaves the whole
store unchanged when it reports count 0; `Seek`, whether it succeeds or
fails, leaves the store unchanged for all arguments; and a `Bytes` that
returns leaves store and position unchanged. -/
theorem only_write_mutates_data (b : Buffer) :
    (∀ (p : Slice) (r : ReadResult), p.off = none → Read b p = some r →
      r.buf.data = b.data) ∧
    (∀ (p : Slice) (r : ReadResult), Read b p = some r →
      len r.buf.data = len b.data ∧ (r.n = 0 → r.buf.data = b.data)) ∧
    (∀ offset whence : Int, (Seek b offset whence).buf.data = b.data) ∧
    (∀ r : BytesResult, Bytes b = some r → r.buf = b) := by
  refine ⟨?_, ?_, ?_, ?_⟩
  · intro p r hown hr
    unfold Read at hr
    split_ifs at hr with hp
    · cases hr; rfl
    · cases hs : sliceFrom b.data b.pos with
      | none => rw [hs] at hr; cases hr
      | some rest =>
        rw [hs] at hr
        simp only at hr
        split_ifs at hr
        · cases hr; rfl
        · cases hr
          exact storeAfterCopyInto_of_own p b.data _ hown
  · intro p r hr
    unfold Read at hr
    split_ifs at hr with hp
    · cases hr; exact ⟨rfl, fun _ => rfl⟩
    · cases hs : sliceFrom b.data b.pos with
      | none => rw [hs] at hr; cases hr
      | some rest =>
        rw [hs] at hr
        simp only at hr
        split_ifs at hr with hrest
        · cases hr; exact ⟨rfl, fun _ => rfl⟩
        · cases hr
          refine ⟨?_, ?_⟩
          · show len (storeAfterCopyInto p b.data _) = len b.data
            unfold len
            rw [length_storeAfterCopyInto]
          · intro hn
            exfalso
            have hn2 : ((copyLen p.bytes rest : Nat) : Int) = 0 := hn
            unfold copyLen at hn2
            unfold len at hp hrest
            omega
  · intro offset whence
    unfold Seek
    simp only
    split_ifs <;> rfl
  · intro r hr
    unfold Bytes at hr
    cases hs : sliceFrom b.data b.pos with
    | none => rw [hs] at hr; cases hr
    | some rest =>
      rw [hs] at hr
      cases hr
      rfl

theorem only_write_mutates_data_witness :
    (Slice.own [0]).off = none ∧
    Read ⟨[1, 2, 3], 1⟩ (Slice.own [0]) = some ⟨⟨[1, 2, 3], 2⟩, [2], 1, none⟩ ∧
    (ReadResult.mk ⟨[1, 2, 3], 2⟩ [2] 1 none).buf.data = (Buffer.mk [1, 2, 3] 1).data :=
  ⟨rfl, by decide,
    (only_write_mutates_data ⟨[1, 2, 3], 1⟩).1 (Slice.own [0])
      ⟨⟨[1, 2, 3], 2⟩, [2], 1, none⟩ rfl (by decide)⟩

/-- C18, zero-offset seeks never fail: when `0 <= pos <= len(data)` (the store
being a Go slice, `len(data) <= maxInt`), empty or not, `Seek(0, SEEK_SET)`
returns `(0, nil)` and sets the position to 0, `Seek(0, SEEK_CUR)` returns
`(pos, nil)` and leaves the buffer unchanged, and `Seek(0, SEEK_END)` returns
`(len(data), nil)` and sets the position to `len(data)`. -/
theorem seek_zero_offset (b : Buffer) (h : InRange b) (hlen : len b.data ≤ maxInt) :
    Seek b 0 SEEK_SET = ⟨{ b with pos := 0 }, 0, none⟩ ∧
    Seek b 0 SEEK_CUR = ⟨b, b.pos, none⟩ ∧
    Seek b 0 SEEK_END = ⟨{ b with pos := len b.data }, len b.data, none⟩ := by
  have hh := h
  unfold InRange at hh
  have hl0 : 0 ≤ len b.data := by unfold len; omega
  have hw0 : wrapInt 0 = 0 := by decide
  have hwp : wrapInt (b.pos + 0) = b.pos := by
    rw [add_zero]
    exact wrapInt_of_isInt ⟨by unfold minInt; omega, by unfold maxInt at hlen ⊢; omega⟩
  have hwl : wrapInt (len b.data + 0) = len b.data := by
    rw [add_zero]
    exact wrapInt_of_isInt ⟨by unfold minInt; omega, by unfold maxInt at hlen ⊢; omega⟩
  refine ⟨?_, ?_, ?_⟩
  · simp [Seek, SEEK_SET, SEEK_CUR, hw0]
  · simp only [Seek, SEEK_CUR, hw0, hwp]
    simp
  · simp only [Seek, SEEK_SET, SEEK_CUR, SEEK_END, hw0, hwl]
    simp [not_lt.mpr hl0]

theorem seek_zero_offset_witness :
    InRange ⟨[102, 111, 111, 98, 97, 114], 6⟩ ∧
    Seek ⟨[102, 111, 111, 98, 97, 114], 6⟩ 0 SEEK_SET
      = ⟨{ (Buffer.mk [102, 111, 111, 98, 97, 114] 6) with pos := 0 }, 0, none⟩ :=
  ⟨by decide, (seek_zero_offset ⟨[102, 111, 111, 98, 97, 114], 6⟩ (by decide) (by decide)).1⟩

/-- C19 as stated fails: with one byte stored and the position at 1 (in
range), `Seek(maxInt, SEEK_CUR)` has `offset >= 0` and returns no error, yet
`b.pos+o` has wrapped and the position left behind is `minInt`, out of
range; the next `Read`, `Write` and `Bytes` all panic. -/
theorem seek_current_leaves_range :
    InRange ⟨[0], 1⟩ ∧ IsInt maxInt ∧ 0 ≤ maxInt ∧
    (Seek ⟨[0], 1⟩ maxInt SEEK_CUR).err = none ∧
    (Seek ⟨[0], 1⟩ maxInt SEEK_CUR).buf.pos = minInt ∧
    ¬ InRange (Seek ⟨[0], 1⟩ maxInt SEEK_CUR).buf ∧
    Read (Seek ⟨[0], 1⟩ maxInt SEEK_CUR).buf (Slice.own [0]) = none ∧
    Write (Seek ⟨[0], 1⟩ maxInt SEEK_CUR).buf (Slice.own [0]) = none ∧
    Bytes (Seek ⟨[0], 1⟩ maxInt SEEK_CUR).buf = none := by
  decide

/-- C19 amended, in-range position is preserved: if `0 <= pos <= len(data)`
holds before (the store being a Go slice, `len(data) <= maxInt`), then every
`Read` returns and leaves it true; every `Write` returns and leaves it true
(the store after the write being a Go slice, `pos + L <= maxInt`), the
argument of either being any slice, with memory of its own or sharing the
store's; and it is true after every successful `Seek(offset >= 0, SEEK_SET)`,
every successful `Seek(offset >= 0, SEEK_CUR)` with `pos + offset <= maxInt`,
and every successful `Seek(offset <= 0, SEEK_END)`. Consequently the next
`Read`, `Write` or `Bytes` does not panic on `b.data[b.pos:]`. -/
theorem in_range_preserved (b : Buffer) (h : InRange b) (hlen : len b.data ≤ maxInt) :
    (∀ p : Slice, ∃ r : ReadResult, Read b p = some r ∧ InRange r.buf) ∧
    (∀ src : Slice, b.pos + len src.bytes ≤ maxInt →
      ∃ r : Result, Write b src = some r ∧ InRange r.buf) ∧
    (∀ offset : Int, IsInt offset → 0 ≤ offset →
      (Seek b offset SEEK_SET).err = none → InRange (Seek b offset SEEK_SET).buf) ∧
    (∀ offset : Int, IsInt offset → 0 ≤ offset → b.pos + offset ≤ maxInt →
      (Seek b offset SEEK_CUR).err = none → InRange (Seek b offset SEEK_CUR).buf) ∧
    (∀ offset : Int, IsInt offset → offset ≤ 0 →
      (Seek b offset SEEK_END).err = none → InRange (Seek b offset SEEK_END).buf) ∧
    (∀ c : Buffer, InRange c →
      (∀ p : Slice, Read c p ≠ none) ∧ (∀ p : Slice, Write c p ≠ none) ∧
      Bytes c ≠ none) := by
  have hh := h
  unfold InRange at hh
  have hl0 : 0 ≤ len b.data := by unfold len; omega
  have hk : b.pos.toNat ≤ b.data.length := toNat_le_length hh.1 hh.2
  refine ⟨?_, ?_, ?_, ?_, ?_, ?_⟩
  · intro p
    by_cases hp : len p.bytes = 0
    · exact ⟨⟨b, p.bytes, 0, none⟩, by rw [Read, if_pos hp], h⟩
    · by_cases hrest : len (b.data.drop b.pos.toNat) ≤ 0
      · exact ⟨⟨b, p.bytes, 0, some Error.EOF⟩,
          by rw [Read, if_neg hp, sliceFrom_of_le hh.1 hh.2]; simp only [if_pos hrest], h⟩
      · refine ⟨_, Read_of_remaining b p hp hh.1 hh.2 hrest, ?_⟩
        have hn : (copyLen p.bytes (b.data.drop b.pos.toNat) : Int) ≤ len b.data - b.pos := by
          unfold copyLen len
          rw [List.length_drop]
          unfold len at hh
          omega
        have hw : wrapInt (b.pos + (copyLen p.bytes (b.data.drop b.pos.toNat) : Int))
            = b.pos + (copyLen p.bytes (b.data.drop b.pos.toNat) : Int) :=
          wrapInt_of_isInt ⟨by unfold minInt; omega, by unfold maxInt at hlen ⊢; omega⟩
        show 0 ≤ wrapInt (b.pos + (copyLen p.bytes (b.data.drop b.pos.toNat) : Int)) ∧
          wrapInt (b.pos + (copyLen p.bytes (b.data.drop b.pos.toNat) : Int))
            ≤ len (storeAfterCopyInto p b.data _)
        rw [hw]
        unfold len at hn ⊢
        rw [length_storeAfterCopyInto]
        omega
  · intro src hfit
    have hs0 : 0 ≤ len src.bytes := by unfold len; omega
    have hw : wrapInt (b.pos + len src.bytes) = b.pos + len src.bytes :=
      wrapInt_of_isInt ⟨by unfold minInt; omega, hfit⟩
    refine ⟨_, Write_of_inRange b src h, ?_⟩
    show 0 ≤ wrapInt (b.pos + len src.bytes) ∧ wrapInt (b.pos + len src.bytes)
      ≤ len (b.data.take b.pos.toNat ++ copy (b.data.drop b.pos.toNat) src.bytes
        ++ (src.reread (b.data.take b.pos.toNat
            ++ copy (b.data.drop b.pos.toNat) src.bytes)).drop
          (copyLen (b.data.drop b.pos.toNat) src.bytes))
    rw [hw]
    unfold len at hh ⊢
    rw [length_written b.data src b.pos.toNat hk]
    omega
  · intro offset hoff hge herr
    rw [Seek_set_eq, wrapInt_of_isInt hoff] at herr ⊢
    split_ifs at herr ⊢ with hc
    show 0 ≤ offset ∧ offset ≤ len b.data
    omega
  · intro offset hoff hge hfit herr
    have hws : wrapInt (b.pos + offset) = b.pos + offset :=
      wrapInt_of_isInt ⟨by unfold minInt; omega, hfit⟩
    rw [Seek_cur_eq, wrapInt_of_isInt hoff, hws] at herr ⊢
    split_ifs at herr ⊢ with hc
    show 0 ≤ b.pos + offset ∧ b.pos + offset ≤ len b.data
    omega
  · intro offset hoff hle herr
    have hoff2 := hoff
    unfold IsInt minInt maxInt at hoff2
    have hws : wrapInt (len b.data + offset) = len b.data + offset :=
      wrapInt_of_isInt ⟨by unfold minInt; omega, by unfold maxInt at hlen ⊢; omega⟩
    rw [Seek_end_eq, wrapInt_of_isInt hoff, hws] at herr ⊢
    split_ifs at herr ⊢ with hc
    show 0 ≤ len b.data + offset ∧ len b.data + offset ≤ len b.data
    omega
  · intro c hc
    refine ⟨?_, ?_, ?_⟩
    · intro p
      unfold Read
      rw [sliceFrom_of_le hc.1 hc.2]
      simp only
      split_ifs <;> simp
    · intro p
      rw [Write_of_inRange c p hc]
      simp
    · rw [Bytes, sliceFrom_of_le hc.1 hc.2]
      simp

theorem in_range_preserved_witness :
    InRange ⟨[1, 2, 3], 1⟩ ∧ len (Buffer.mk [1, 2, 3] 1).data ≤ maxInt ∧
    ∃ r : Result, Write ⟨[1, 2, 3], 1⟩ (Slice.own [7, 8, 9]) = some r ∧ InRange r.buf :=
  ⟨by decide, by decide,
    (in_range_preserved ⟨[1, 2, 3], 1⟩ (by decide) (by decide)).2.1
      (Slice.own [7, 8, 9]) (by decide)⟩

/-- C20 as stated fails: take `src := b.Bytes()` on the store `[1, 2, 3]` at
position 0, seek to 1 and `Write(src)`. `copy` overwrites bytes 1 and 2 of the
store, which are also `src[1]` and `src[2]`, before `src[2:]` is appended; the
store ends as `[1, 1, 2, 2]`, and after `Seek(-3, SEEK_CUR)` a `Read` into
three bytes of the caller's own returns count 3 and `[1, 2, 2]`, not the
`[1, 2, 3]` that `src` held when `Write` was called. -/
theorem write_aliased_read_back :
    Bytes ⟨[1, 2, 3], 0⟩ = some ⟨⟨[1, 2, 3], 0⟩, ⟨[1, 2, 3], some 0⟩⟩ ∧
    Seek ⟨[1, 2, 3], 0⟩ 1 SEEK_SET = ⟨⟨[1, 2, 3], 1⟩, 1, none⟩ ∧
    InRange ⟨[1, 2, 3], 1⟩ ∧
    (Slice.mk [1, 2, 3] (some 0)).ValidFor [1, 2, 3] ∧
    Write ⟨[1, 2, 3], 1⟩ ⟨[1, 2, 3], some 0⟩ = some ⟨⟨[1, 1, 2, 2], 4⟩, 3, none⟩ ∧
    Seek ⟨[1, 1, 2, 2], 4⟩ (-3) SEEK_CUR = ⟨⟨[1, 1, 2, 2], 1⟩, 1, none⟩ ∧
    Read ⟨[1, 1, 2, 2], 1⟩ (Slice.own [0, 0, 0])
      = some ⟨⟨[1, 1, 2, 2], 4⟩, [1, 2, 2], 3, none⟩ ∧
    ([1, 2, 2] : List Byte) ≠ [1, 2, 3] := by
  decide

/-- C20 amended, write then read back at any position: when
`0 <= pos <= len(data)` (the store after the write being a Go slice,
`pos + L <= maxInt`), `Write(src)` with `L = len(src)`, then
`Seek(-L, SEEK_CUR)`, then `Read` into a destination of length `L` all return
without error, for any `src` and any destination; the write reports `L`, the
seek returns the original position, the read reports count `L`, and the
position ends at the original position plus `L`; and if `src` shares no
memory with the store, the read leaves `src` in the destination. -/
theorem write_seek_back_read (b : Buffer) (src dest : Slice) (h : InRange b)
    (hd : dest.bytes.length = src.bytes.length) (hfit : b.pos + len src.bytes ≤ maxInt) :
    ∃ (b1 b2 b3 : Buffer) (out : List Byte),
      Write b src = some ⟨b1, len src.bytes, none⟩ ∧
      Seek b1 (-(len src.bytes)) SEEK_CUR = ⟨b2, b.pos, none⟩ ∧
      Read b2 dest = some ⟨b3, out, len src.bytes, none⟩ ∧
      b3.pos = b.pos + len src.bytes ∧
      (src.off = none → out = src.bytes) := by
  have hh := h
  unfold InRange at hh
  have hk : b.pos.toNat ≤ b.data.length := toNat_le_length hh.1 hh.2
  have hs0 : 0 ≤ len src.bytes := by unfold len; omega
  have hwsum : wrapInt (b.pos + len src.bytes) = b.pos + len src.bytes :=
    wrapInt_of_isInt ⟨by unfold minInt; omega, hfit⟩
  have hwneg : wrapInt (-(len src.bytes)) = -(len src.bytes) :=
    wrapInt_of_isInt ⟨by unfold minInt maxInt at *; omega, by unfold maxInt; omega⟩
  have hwpos : wrapInt (b.pos + len src.bytes + -(len src.bytes)) = b.pos := by
    have e : b.pos + len src.bytes + -(len src.bytes) = b.pos := by omega
    rw [e]
    exact wrapInt_of_isInt ⟨by unfold minInt; omega, by unfold maxInt at hfit ⊢; omega⟩
  obtain ⟨D, hD⟩ : ∃ D : List Byte, D
      = b.data.take b.pos.toNat ++ copy (b.data.drop b.pos.toNat) src.bytes
        ++ (src.reread (b.data.take b.pos.toNat
            ++ copy (b.data.drop b.pos.toNat) src.bytes)).drop
          (copyLen (b.data.drop b.pos.toNat) src.bytes) := ⟨_, rfl⟩
  have hDlen : D.length = max b.data.length (b.pos.toNat + src.bytes.length) := by
    rw [hD]
    exact length_written b.data src b.pos.toNat hk
  have hDown : src.off = none → D
      = b.data.take b.pos.toNat ++ src.bytes
        ++ b.data.drop (b.pos.toNat + src.bytes.length) := by
    intro ho
    rw [hD, reread_of_own src _ ho]
    exact write_data_eq b.data src.bytes b.pos.toNat hk
  have hw : Write b src = some ⟨⟨D, b.pos + len src.bytes⟩, len src.bytes, none⟩ := by
    rw [Write_of_inRange b src h, hwsum, ← hD]
  have hsk : Seek ⟨D, b.pos + len src.bytes⟩ (-(len src.bytes)) SEEK_CUR
      = ⟨⟨D, b.pos⟩, b.pos, none⟩ := by
    rw [Seek_cur_eq, hwneg]
    simp only [hwpos]
    rw [if_neg (by omega)]
  have hposD : b.pos ≤ len D := by
    unfold len at hh ⊢
    rw [hDlen]
    omega
  by_cases hS : src.bytes = []
  · have hdn : dest.bytes = [] := List.length_eq_zero.mp (by rw [hd, hS]; rfl)
    refine ⟨_, _, ⟨D, b.pos⟩, dest.bytes, hw, hsk, ?_, ?_, ?_⟩
    · rw [Read, if_pos (by rw [hdn]; rfl), hS]
      rfl
    · simp [hS, len]
    · intro _
      rw [hdn, hS]
  · have hpos : 0 < src.bytes.length := List.length_pos.mpr hS
    have hp : ¬ len dest.bytes = 0 := by unfold len; omega
    have hrestlen : (D.drop b.pos.toNat).length = D.length - b.pos.toNat :=
      List.length_drop _ _
    have hrest : ¬ len (D.drop b.pos.toNat) ≤ 0 := by
      unfold len
      rw [hrestlen, hDlen]
      omega
    have hread := Read_of_remaining ⟨D, b.pos⟩ dest hp hh.1 hposD hrest
    have hcl : copyLen dest.bytes (D.drop b.pos.toNat) = src.bytes.length := by
      unfold copyLen
      rw [hrestlen, hDlen, hd]
      omega
    simp only [hcl] at hread
    have hl : ((src.bytes.length : Nat) : Int) = len src.bytes := rfl
    rw [hl, hwsum] at hread
    refine ⟨_, _, _, _, hw, hsk, hread, rfl, ?_⟩
    intro ho
    rw [hDown ho, drop_written b.data src.bytes b.pos.toNat hk]
    have hcl2 : copyLen dest.bytes
        (src.bytes ++ b.data.drop (b.pos.toNat + src.bytes.length)) = src.bytes.length := by
      unfold copyLen
      simp only [List.length_append, hd]
      omega
    unfold copy
    rw [hcl2, List.take_left, List.drop_of_length_le (by omega), List.append_nil]

theorem write_seek_back_read_witness :
    InRange ⟨[1, 2, 3, 4], 1⟩ ∧
    ∃ (b1 b2 b3 : Buffer) (out : List Byte),
      Write ⟨[1, 2, 3, 4], 1⟩ (Slice.own [8, 9])
        = some ⟨b1, len (Slice.own [8, 9]).bytes, none⟩ ∧
      Seek b1 (-(len (Slice.own [8, 9]).bytes)) SEEK_CUR
        = ⟨b2, (Buffer.mk [1, 2, 3, 4] 1).pos, none⟩ ∧
      Read b2 (Slice.own [0, 0])
        = some ⟨b3, out, len (Slice.own [8, 9]).bytes, none⟩ ∧
      b3.pos = (Buffer.mk [1, 2, 3, 4] 1).pos + len (Slice.own [8, 9]).bytes ∧
      ((Slice.own [8, 9]).off = none → out = (Slice.own [8, 9]).bytes) :=
  ⟨by decide,
    write_seek_back_read ⟨[1, 2, 3, 4], 1⟩ (Slice.own [8, 9]) (Slice.own [0, 0])
      (by decide) (by decide) (by decide)⟩

end Seekbuf
